import Mathlib

/-!
Verification of the client-side state/reconciliation engine of the
projects-factory dashboard (src/FRONTEND/app.js), via a shallow embedding.

JavaScript strings are modelled as lists of characters (`JStr`), JavaScript
`Set` objects as `Finset JStr`, and `Array.prototype.sort(cmp)` — which the
ECMAScript standard requires to be a stable sort consistent with the
comparator — as insertion sort on the relation `cmp a b ≤ 0`; for the total
transitive comparators used by app.js a stable sorted permutation is unique,
so this choice is forced up to extensional equality.  `Date.parse` is kept as
an explicit parameter `dateParse : JStr → Option Int` (`none` models `NaN`),
since app.js only ever consumes timestamps through `getCreatedAtMs`.
Locale-aware base-sensitivity comparison (`localeCompare` with
`{ sensitivity: 'base' }`) is modelled as code-point comparison of the
lower-cased strings.  Asynchronous handlers are split at their `await`
points, and their observable effects (welcome notices, remote API calls,
DOM panel updates) are recorded as explicit `Event` values.
-/

namespace ProjectsFactory

/-- JavaScript strings, modelled as their lists of characters. -/
abbrev JStr := List Char

/-- JavaScript `s.endsWith(post)`. -/
def jsEndsWith (s post : JStr) : Bool := post.isSuffixOf s

/-- Dropping the last `n` characters of a string, as the end-anchored regex
replacements in app.js do on a match. -/
def jsDropRight (s : JStr) (n : Nat) : JStr := s.take (s.length - n)

/-- app.js line 4:
`const normalizeRepoUrl = (url = '') => String(url).replace(/\.git$/, '').replace(/\/$/, '')`.
Each replacement strips one trailing occurrence of its pattern, if present. -/
def normalizeRepoUrl (url : JStr) : JStr :=
  let s1 := if jsEndsWith url ".git".data then jsDropRight url 4 else url
  if jsEndsWith s1 "/".data then jsDropRight s1 1 else s1

/-- JavaScript `s.toLowerCase()` (per character). -/
def jsToLower (s : JStr) : JStr := s.map Char.toLower

/-- Three-way lexicographic comparison of character lists by code point:
the model of the sign of a JavaScript string comparison. -/
def cmpCodes : JStr → JStr → Int
  | [], [] => 0
  | [], _ :: _ => -1
  | _ :: _, [] => 1
  | a :: as, b :: bs => if a < b then -1 else if b < a then 1 else cmpCodes as bs

/-- `String(a).localeCompare(String(b), undefined, { sensitivity: 'base' })`,
modelled as code-point comparison of the lower-cased strings. -/
def cmpText (a b : JStr) : Int := cmpCodes (jsToLower a) (jsToLower b)

/-- A project record as it lives in `State.repos`.  `__rowNo` is the derived
1-based row number written by `recalcRowNumbers`. -/
structure Repo where
  name : JStr
  url : JStr
  description : JStr := []
  created_at : JStr := []
  is_new_project : Bool := false
  «private» : Bool := false
  can_push : Bool := false
  __rowNo : Nat := 0
deriving DecidableEq

/-- app.js 225-228: `Date.parse` of the timestamp if it is a finite number,
`-1` otherwise (`Date.parse` returning `NaN` is modelled by `none`). -/
def getCreatedAtMs (dateParse : JStr → Option Int) (value : JStr) : Int :=
  (dateParse value).getD (-1)

/-- The comparator inside `recalcRowNumbers` (app.js 18-22): descending
`created_at` milliseconds, ties broken by base-sensitivity name comparison. -/
def rowNoCmp (dateParse : JStr → Option Int) (a b : Repo) : Int :=
  let dt := getCreatedAtMs dateParse b.created_at - getCreatedAtMs dateParse a.created_at
  if dt ≠ 0 then dt else cmpText a.name b.name

/-- JavaScript `Array.prototype.sort(cmp)`: the stable sort that places `a`
no later than `b` whenever `cmp a b ≤ 0`. -/
def jsSort (cmp : α → α → Int) (l : List α) : List α :=
  l.insertionSort (fun a b => cmp a b ≤ 0)

/-- The row key `` `${repo.name}|${repo.url}` `` (app.js 23, 471-473). -/
def rowKey (r : Repo) : JStr := r.name ++ ('|' :: r.url)

/-- `new Map(entries).get(k)`: with duplicate keys the later entry wins, so
look the key up in the reversed entry list. -/
def jsMapGet (entries : List (JStr × Nat)) (k : JStr) : Option Nat :=
  entries.reverse.lookup k

/-- The `(key, rowNumber)` entries built by `recalcRowNumbers` (app.js 23):
the i-th record of the sorted order receives row number `length - i`. -/
def rowEntries (dateParse : JStr → Option Int) (repos : List Repo) : List (JStr × Nat) :=
  let ordered := jsSort (rowNoCmp dateParse) repos
  ordered.enum.map (fun p => (rowKey p.2, ordered.length - p.1))

/-- `map.get(key) || 0` for a record's row key (app.js 24). -/
def assignedRowNo (dateParse : JStr → Option Int) (repos : List Repo) (r : Repo) : Nat :=
  (jsMapGet (rowEntries dateParse repos) (rowKey r)).getD 0

/-- app.js 17-25: write the recomputed row number into every record,
leaving the array order untouched. -/
def recalcRowNumbers (dateParse : JStr → Option Int) (repos : List Repo) : List Repo :=
  repos.map (fun r => { r with __rowNo := assignedRowNo dateParse repos r })

/-- The slice of the `State` singleton that the verified operations touch. -/
structure StoreState where
  repos : List Repo := []
  installedUrls : Finset JStr := ∅
  count : Nat := 0
  localOnlyCount : Nat := 0
  installedCount : Nat := 0
  lastLaunchedRowNo : Option Nat := none
deriving DecidableEq

/-- app.js 26-31: derive the three counters from the record list and the
installed-URL set, then recompute row numbers. -/
def recalcStateCounters (dateParse : JStr → Option Int) (s : StoreState) : StoreState :=
  { s with
    localOnlyCount := (s.repos.filter (fun r => r.is_new_project)).length
    count := (s.repos.filter (fun r => !r.is_new_project)).length
    installedCount := s.installedUrls.card
    repos := recalcRowNumbers dateParse s.repos }

/-- app.js 276-280: local-only records are never installed; others are
tested by normalized-URL membership. -/
def isInstalled (s : StoreState) (repo : Repo) : Bool :=
  if repo.is_new_project then false
  else decide (normalizeRepoUrl repo.url ∈ s.installedUrls)

/-- app.js 282-286: the records with a positive row number, ascending by
row number. -/
def getLaunchableRepos (s : StoreState) : List Repo :=
  jsSort (fun a b => (a.__rowNo : Int) - (b.__rowNo : Int))
    (s.repos.filter (fun r => decide (0 < r.__rowNo)))

/-- app.js 288-293: the first launchable record past the watermark, wrapping
to the first launchable record, or nothing when none is launchable. -/
def getNextLaunchRepo (s : StoreState) : Option Repo :=
  let launchable := getLaunchableRepos s
  if launchable.isEmpty then none
  else
    let last := s.lastLaunchedRowNo.getD 0
    (launchable.find? (fun r => decide (last < r.__rowNo))).orElse (fun _ => launchable.head?)

/-- The sort keys offered by the table header (app.js 395-416; the markup's
`data-sort` attributes supply exactly these five values). -/
inductive SortKey
  | name
  | description
  | url
  | created_at
  | type
deriving DecidableEq

/-- Sort direction (app.js 331-332, 370-379). -/
inductive SortDir
  | asc
  | desc
deriving DecidableEq

/-- The `weight` function of the `type` column (app.js 410):
local-only 0, private 1, public 2. -/
def typeWeight (r : Repo) : Int :=
  if r.is_new_project then 0 else if r.«private» then 1 else 2

/-- The per-column comparison `result` of `getSortedRepos` (app.js 394-416). -/
def sortResult (dateParse : JStr → Option Int) (key : SortKey) (a b : Repo) : Int :=
  match key with
  | SortKey.name => cmpText a.name b.name
  | SortKey.description => cmpText a.description b.description
  | SortKey.url => cmpText a.url b.url
  | SortKey.created_at =>
      getCreatedAtMs dateParse a.created_at - getCreatedAtMs dateParse b.created_at
  | SortKey.type => typeWeight a - typeWeight b

/-- `dir` (app.js 391): ascending 1, descending -1. -/
def dirSign : SortDir → Int
  | SortDir.asc => 1
  | SortDir.desc => -1

/-- app.js 389-420: sort a copy of the record list by `result * dir`. -/
def getSortedRepos (dateParse : JStr → Option Int) (key : SortKey) (dir : SortDir)
    (repos : List Repo) : List Repo :=
  jsSort (fun a b => sortResult dateParse key a b * dirSign dir) repos

/-- Remove the first occurrence of a character: `timePart.replace('Z', '')`. -/
def jsRemoveFirst (c : Char) : JStr → JStr
  | [] => []
  | x :: xs => if x = c then xs else x :: jsRemoveFirst c xs

/-- The result of `formatCreated` (app.js 217-223): either the string `'-'`
or a `{ date, time }` object. -/
inductive Created
  | dash
  | parts (date time : JStr)
deriving DecidableEq

/-- app.js 217-223: split the timestamp on `'T'`, clean the time part and
fall back to `'--:--'`. -/
def formatCreated (value : JStr) : Created :=
  if value.isEmpty then Created.dash
  else
    let segs := value.splitOn 'T'
    let datePart := segs.headD []
    let timePart := (segs.drop 1).headD []
    let cleanTime := (jsRemoveFirst 'Z' timePart).take 5
    if datePart.isEmpty then Created.dash
    else Created.parts datePart (if cleanTime.isEmpty then "--:--".data else cleanTime)

/-- `created.date` where `created` may be the string `'-'`: property access
on the string yields `undefined`, which `Array.prototype.join` renders as
the empty string. -/
def createdDateField : Created → JStr
  | Created.dash => []
  | Created.parts d _ => d

/-- `created.time`, see `createdDateField`. -/
def createdTimeField : Created → JStr
  | Created.dash => []
  | Created.parts _ t => t

/-- `parts.join(' ')`. -/
def jsJoinSpace (parts : List JStr) : JStr := List.intercalate " ".data parts

/-- The per-record haystack of `getFilteredRepos` (app.js 426-435),
lower-cased: name, description, url, formatted date and time, and the
human labels for privacy and kind. -/
def repoHaystack (repo : Repo) : JStr :=
  let created := formatCreated repo.created_at
  jsToLower (jsJoinSpace
    [repo.name, repo.description, repo.url,
     createdDateField created, createdTimeField created,
     if repo.«private» then "private lock".data else "public globe".data,
     if repo.is_new_project then "local folder".data else "github".data])

/-- JavaScript `s.trim()`. -/
def jsTrim (s : JStr) : JStr :=
  ((s.dropWhile Char.isWhitespace).reverse.dropWhile Char.isWhitespace).reverse

/-- The tokens of `getFilteredRepos` (app.js 422-424): the query is trimmed
and lower-cased, split on whitespace, and empty tokens are dropped
(`query.split(/\s+/).filter(Boolean)`; splitting on single whitespace
characters and filtering out empties yields the same token list). -/
def filterTokens (query : JStr) : List JStr :=
  ((jsToLower (jsTrim query)).splitOnP Char.isWhitespace).filter (fun t => !t.isEmpty)

/-- `hay.startsWith(tok)` on character lists. -/
def startsWithSeq : JStr → JStr → Bool
  | _, [] => true
  | [], _ :: _ => false
  | h :: hs, t :: ts => h = t && startsWithSeq hs ts

/-- JavaScript `hay.includes(tok)`: `tok` occurs contiguously in `hay`. -/
def includesSeq : JStr → JStr → Bool
  | [], needle => needle.isEmpty
  | h :: t, needle => startsWithSeq (h :: t) needle || includesSeq t needle

/-- app.js 421-438: with an empty query the sorted list is returned as-is;
otherwise a record survives iff every token occurs in its haystack. -/
def getFilteredRepos (dateParse : JStr → Option Int) (key : SortKey) (dir : SortDir)
    (query : JStr) (repos : List Repo) : List Repo :=
  let q := jsToLower (jsTrim query)
  if q.isEmpty then getSortedRepos dateParse key dir repos
  else
    (getSortedRepos dateParse key dir repos).filter (fun repo =>
      (filterTokens query).all (fun token => includesSeq (repoHaystack repo) token))

/-- app.js 582-589, `closeAllActionRows(exceptCell)`: every active logo cell
other than the exception loses its `active` class and its action-row panel
node.  The model tracks the set of active cell urls; a row's panel node is
present exactly when its logo cell is active, since the two are always
added and removed together. -/
def closeAllActionRows (active : Finset JStr) (exceptCell : Option JStr) : Finset JStr :=
  active.filter (fun c => exceptCell = some c)

/-- app.js 549-581, `openActionRow(cell)`: remember whether the clicked cell
was active, close all other rows, then toggle the clicked row. -/
def openActionRow (active : Finset JStr) (url : JStr) : Finset JStr :=
  let wasActive := url ∈ active
  let remaining := closeAllActionRows active (some url)
  if wasActive then remaining.erase url else insert url remaining

/-- The observable effects of the action handlers: welcome-bar notices,
remote API requests, and DOM panel/cell updates. -/
inductive Event
  | welcome (msg : JStr)
  | remoteInstall (url : JStr)
  | remoteRename (github : Bool) (oldName newName : JStr)
  | closeRow (url : JStr)
  | setCellText (text : JStr)
deriving DecidableEq

/-- Recognizes a remote install request. -/
def isRemoteInstall : Event → Bool
  | Event.remoteInstall _ => true
  | _ => false

/-- The synchronous prefix of `handleInstallConfirm` (app.js 607-610), run
before its `await` suspends: show the installing notice and issue the
remote install request.  Nothing here consults or updates any lock. -/
def installPhase1 (repo : Repo) : List Event :=
  [Event.welcome ("⏳ Installing ".data ++ repo.name ++ "...".data),
   Event.remoteInstall repo.url]

/-- The continuation of `handleInstallConfirm` after the remote call settles
(app.js 611-619): on success add the normalized URL to the installed set,
recompute counters, notify and close the row, returning `true`; on failure
show the failure notice with the error detail and return `false`. -/
def installPhase2 (dateParse : JStr → Option Int) (s : StoreState) (repo : Repo) :
    Except JStr Unit → StoreState × List Event × Bool
  | Except.ok _ =>
      let s1 := recalcStateCounters dateParse
        { s with installedUrls := insert (normalizeRepoUrl repo.url) s.installedUrls }
      (s1, [Event.welcome ("✅ Installed ".data ++ repo.name), Event.closeRow repo.url], true)
  | Except.error e =>
      (s, [Event.welcome ("❌ Install failed: ".data ++ e)], false)

/-- app.js 607-620, `handleInstallConfirm(repo)`; the remote call's outcome
is the `remote` parameter, `Except.error e` carrying the thrown message. -/
def handleInstallConfirm (dateParse : JStr → Option Int) (s : StoreState) (repo : Repo)
    (remote : Except JStr Unit) : StoreState × List Event × Bool :=
  let rest := installPhase2 dateParse s repo remote
  (rest.1, installPhase1 repo ++ rest.2.1, rest.2.2)

/-- `url.replace(new RegExp(escapedOriginal + '$'), newName)` (app.js 788):
replace a trailing occurrence of `pat`, if any. -/
def jsReplaceSuffix (url pat repl : JStr) : JStr :=
  if pat.isSuffixOf url then url.take (url.length - pat.length) ++ repl else url

/-- `State.repos.find(p)` followed by in-place mutation: rewrite the first
matching record, leave the rest alone. -/
def updateFirst (p : Repo → Bool) (f : Repo → Repo) : List Repo → List Repo
  | [] => []
  | x :: xs => if p x then f x :: xs else x :: updateFirst p f xs

/-- The `save` closure of `makeEditable` (app.js 782-808).  `original` and
`url` are the cell's record name and url, `input` the edit field's value and
`remote` the outcome of the rename endpoint.  A blank or unchanged target is
rejected before any remote call: the cell text is restored and the store is
untouched. -/
def saveRename (dateParse : JStr → Option Int) (s : StoreState)
    (original url endpoint input : JStr) (remote : Except JStr Unit) :
    StoreState × List Event :=
  let newName := jsTrim input
  if !newName.isEmpty && newName ≠ original then
    let github := includesSeq endpoint "rename-github".data
    match remote with
    | Except.ok _ =>
        let newUrl := jsReplaceSuffix url original newName
        let repos1 := updateFirst (fun r => decide (r.name = original))
          (fun r => { r with name := newName, url := newUrl }) s.repos
        let s1 := recalcStateCounters dateParse { s with repos := repos1 }
        (s1, [Event.remoteRename github original newName,
              Event.welcome ("✅ Renamed to ".data ++ newName),
              Event.closeRow newUrl])
    | Except.error e =>
        (s, [Event.remoteRename github original newName,
             Event.welcome ("❌ Rename failed: ".data ++ e),
             Event.setCellText original])
  else (s, [Event.setCellText original])

/-! ### Concrete inputs used by counterexamples and witnesses -/

/-- A `Date.parse` model for timestamps that do not parse as dates
(`Date.parse('')` is `NaN`); all concrete records below carry an empty
`created_at`, on which every parse function agrees with this one. -/
def dateParseNone : JStr → Option Int := fun _ => none

/-- Two records with the same name and creation time but different urls. -/
def repoA1 : Repo := { name := "a".data, url := "u1".data }

/-- See `repoA1`. -/
def repoA2 : Repo := { name := "a".data, url := "u2".data }

/-- Records with distinct names for the order-invariance witness. -/
def repoNameA : Repo := { name := "a".data, url := "ua".data }

/-- See `repoNameA`. -/
def repoNameB : Repo := { name := "b".data, url := "ub".data }

/-- A published record for the install scenarios. -/
def repoInst : Repo := { name := "r".data, url := "https://github.com/u/r".data }

/-- A store whose only record is `repoInst`. -/
def stInst : StoreState := { repos := [repoInst] }

/-- The store after one successful install of `repoInst` from `stInst`. -/
def stInst2 : StoreState := (handleInstallConfirm dateParseNone stInst repoInst (Except.ok ())).1

/-- Two records tying on `description` with names in descending order. -/
def repoDescB : Repo := { name := "b".data, url := "wb".data, description := "same".data }

/-- See `repoDescB`. -/
def repoDescA : Repo := { name := "a".data, url := "wa".data, description := "same".data }

/-- The private record of the filtering scenario. -/
def repoPrivX : Repo := { name := "x".data, url := "xu".data, «private» := true }

/-- The public record of the filtering scenario. -/
def repoPubY : Repo := { name := "y".data, url := "yu".data }

/-- Launchable records for the next-launch witness. -/
def repoRow1 : Repo := { name := "p1".data, url := "v1".data, __rowNo := 1 }

/-- See `repoRow1`. -/
def repoRow2 : Repo := { name := "p2".data, url := "v2".data, __rowNo := 2 }

/-- A store with two launchable records and watermark 1. -/
def stLaunch : StoreState := { repos := [repoRow1, repoRow2], lastLaunchedRowNo := some 1 }

/-! ### Comparator algebra -/

theorem cmpCodes_nil_nonpos (c : JStr) : cmpCodes [] c ≤ 0 := by
cases c <;> simp [cmpCodes]

theorem cmpCodes_swap : ∀ (a b : JStr), cmpCodes b a = -cmpCodes a b
  | [], [] => rfl
  | [], _ :: _ => rfl
  | _ :: _, [] => rfl
  | a :: as, b :: bs => by
    rcases lt_trichotomy a b with h | h | h
    · simp [cmpCodes, h, asymm h]
    · subst h
      simp [cmpCodes, lt_irrefl, cmpCodes_swap as bs]
    · simp [cmpCodes, h, asymm h]

theorem cmpCodes_trans_nonpos :
    ∀ (a b c : JStr), cmpCodes a b ≤ 0 → cmpCodes b c ≤ 0 → cmpCodes a c ≤ 0
  | [], _, c, _, _ => cmpCodes_nil_nonpos c
  | _ :: _, [], _, h1, _ => by simp [cmpCodes] at h1
  | _ :: _, _ :: _, [], _, h2 => by simp [cmpCodes] at h2
  | x :: xs, y :: ys, z :: zs, h1, h2 => by
    have hyx : ¬ y < x := by
      intro h
      rw [cmpCodes, if_neg (asymm h), if_pos h] at h1
      omega
    have hzy : ¬ z < y := by
      intro h
      rw [cmpCodes, if_neg (asymm h), if_pos h] at h2
      omega
    by_cases hxz : x < z
    · simp [cmpCodes, hxz]
    by_cases hzx : z < x
    · exact absurd (lt_of_lt_of_le hzx ((le_of_not_lt hyx).trans (le_of_not_lt hzy)))
        (lt_irrefl z)
    have hxy : ¬ x < y := by
      intro h
      exact absurd (lt_of_lt_of_le h ((le_of_not_lt hzy).trans (le_of_not_lt hxz)))
        (lt_irrefl x)
    have hyz : ¬ y < z := by
      intro h
      exact absurd (lt_of_lt_of_le h ((le_of_not_lt hxz).trans (le_of_not_lt hyx)))
        (lt_irrefl y)
    rw [cmpCodes, if_neg hxy, if_neg hyx] at h1
    rw [cmpCodes, if_neg hyz, if_neg hzy] at h2
    rw [cmpCodes, if_neg hxz, if_neg hzx]
    exact cmpCodes_trans_nonpos xs ys zs h1 h2

theorem cmpText_swap (a b : JStr) : cmpText b a = -cmpText a b :=
cmpCodes_swap _ _

theorem cmpText_trans_nonpos (a b c : JStr) :
    cmpText a b ≤ 0 → cmpText b c ≤ 0 → cmpText a c ≤ 0 :=
cmpCodes_trans_nonpos _ _ _

theorem rowNoCmp_swap (dp : JStr → Option Int) (a b : Repo) :
    rowNoCmp dp b a = -rowNoCmp dp a b := by
simp only [rowNoCmp]
by_cases h : getCreatedAtMs dp b.created_at - getCreatedAtMs dp a.created_at = 0
· rw [if_neg (by omega), if_neg (by omega)]
  exact cmpText_swap a.name b.name
· rw [if_pos (by omega), if_pos (by omega)]
  omega

theorem rowNoCmp_nonpos_iff (dp : JStr → Option Int) (a b : Repo) :
    rowNoCmp dp a b ≤ 0 ↔
      (getCreatedAtMs dp b.created_at < getCreatedAtMs dp a.created_at ∨
        (getCreatedAtMs dp b.created_at = getCreatedAtMs dp a.created_at ∧
          cmpText a.name b.name ≤ 0)) := by
simp only [rowNoCmp]
by_cases h : getCreatedAtMs dp b.created_at - getCreatedAtMs dp a.created_at = 0
· rw [if_neg (by omega)]
  constructor
  · intro hle
    exact Or.inr ⟨by omega, hle⟩
  · rintro (hlt | ⟨-, hle⟩)
    · omega
    · exact hle
· rw [if_pos (by omega)]
  constructor
  · intro hle
    exact Or.inl (by omega)
  · rintro (hlt | ⟨heq, -⟩) <;> omega

theorem rowNoCmp_trans_nonpos (dp : JStr → Option Int) (a b c : Repo) :
    rowNoCmp dp a b ≤ 0 → rowNoCmp dp b c ≤ 0 → rowNoCmp dp a c ≤ 0 := by
intro h1 h2
rw [rowNoCmp_nonpos_iff] at h1 h2 ⊢
rcases h1 with h1 | ⟨e1, c1⟩
· rcases h2 with h2 | ⟨e2, -⟩
  · exact Or.inl (h2.trans h1)
  · exact Or.inl (by omega)
· rcases h2 with h2 | ⟨e2, c2⟩
  · exact Or.inl (by omega)
  · exact Or.inr ⟨by omega, cmpText_trans_nonpos _ _ _ c1 c2⟩

/-! ### The stable sort -/

theorem jsSort_perm (cmp : α → α → Int) (l : List α) : (jsSort cmp l).Perm l :=
List.perm_insertionSort _ _

theorem jsSort_sorted (cmp : α → α → Int)
    (hswap : ∀ a b, cmp b a = -cmp a b)
    (htrans : ∀ a b c, cmp a b ≤ 0 → cmp b c ≤ 0 → cmp a c ≤ 0) (l : List α) :
    (jsSort cmp l).Pairwise (fun a b => cmp a b ≤ 0) := by
haveI : IsTotal α (fun a b => cmp a b ≤ 0) := by
  constructor
  intro a b
  by_cases h : cmp a b ≤ 0
  · exact Or.inl h
  · refine Or.inr ?_
    have := hswap a b
    omega
haveI : IsTrans α (fun a b => cmp a b ≤ 0) := ⟨htrans⟩
exact List.sorted_insertionSort _ l

theorem sorted_perm_eq {r : α → α → Prop} :
    ∀ {l₁ l₂ : List α}, l₁.Perm l₂ → l₁.Pairwise r → l₂.Pairwise r →
      (∀ a ∈ l₁, ∀ b ∈ l₁, r a b → r b a → a = b) → l₁ = l₂
  | [], l₂, hp, _, _, _ => hp.nil_eq
  | a :: t₁, [], hp, _, _, _ => by
    exact absurd hp.symm.nil_eq (by simp)
  | a :: t₁, b :: t₂, hp, hs₁, hs₂, anti => by
    have hab : a = b := by
      by_cases h : a = b
      · exact h
      have hbmem : b ∈ a :: t₁ := hp.symm.subset (List.mem_cons_self b t₂)
      have hb : b ∈ t₁ := by
        rcases List.mem_cons.mp hbmem with h' | h'
        · exact absurd h'.symm h
        · exact h'
      have hamem : a ∈ b :: t₂ := hp.subset (List.mem_cons_self a t₁)
      have ha : a ∈ t₂ := by
        rcases List.mem_cons.mp hamem with h' | h'
        · exact absurd h' h
        · exact h'
      exact anti a (List.mem_cons_self a t₁) b hbmem
        (List.rel_of_pairwise_cons hs₁ hb) (List.rel_of_pairwise_cons hs₂ ha)
    subst hab
    have hp' : t₁.Perm t₂ := hp.cons_inv
    have ht : t₁ = t₂ :=
      sorted_perm_eq hp' (List.Pairwise.of_cons hs₁) (List.Pairwise.of_cons hs₂)
        (fun x hx y hy => anti x (List.mem_cons_of_mem a hx) y (List.mem_cons_of_mem a hy))
    rw [ht]

theorem jsSort_eq_of_perm (cmp : α → α → Int)
    (hswap : ∀ a b, cmp b a = -cmp a b)
    (htrans : ∀ a b c, cmp a b ≤ 0 → cmp b c ≤ 0 → cmp a c ≤ 0)
    {l l' : List α} (hp : l.Perm l')
    (anti : ∀ a ∈ l, ∀ b ∈ l, cmp a b ≤ 0 → cmp b a ≤ 0 → a = b) :
    jsSort cmp l = jsSort cmp l' := by
refine sorted_perm_eq ?_ (jsSort_sorted cmp hswap htrans l) (jsSort_sorted cmp hswap htrans l')
  ?_
· exact ((jsSort_perm cmp l).trans hp).trans (jsSort_perm cmp l').symm
· intro a ha b hb
  exact anti a ((jsSort_perm cmp l).subset ha) b ((jsSort_perm cmp l).subset hb)

/-! ### Row-number assignment -/

theorem lookup_eq_some_of_nodup_keys :
    ∀ {es : List (JStr × Nat)}, (es.map Prod.fst).Nodup →
      ∀ {k : JStr} {v : Nat}, (k, v) ∈ es → es.lookup k = some v
  | [], _, _, _, hm => by simp at hm
  | (k', v') :: es, h, k, v, hm => by
    have hkeys' : k' ∉ es.map Prod.fst ∧ (es.map Prod.fst).Nodup := by
      simpa [List.nodup_cons] using h
    rcases List.mem_cons.mp hm with he | ht
    · cases he
      simp [List.lookup]
    · have hne : k ≠ k' := by
        intro he
        exact hkeys'.1 (he ▸ List.mem_map_of_mem Prod.fst ht)
      have hb : (k == k') = false := beq_eq_false_iff_ne.mpr hne
      rw [List.lookup, hb]
      exact lookup_eq_some_of_nodup_keys hkeys'.2 ht

theorem jsMapGet_eq_some {es : List (JStr × Nat)} (h : (es.map Prod.fst).Nodup)
    {k : JStr} {v : Nat} (hm : (k, v) ∈ es) : jsMapGet es k = some v := by
unfold jsMapGet
exact lookup_eq_some_of_nodup_keys
  (by rw [List.map_reverse]; exact List.nodup_reverse.mpr h)
  (List.mem_reverse.mpr hm)

theorem rowEntries_keys (dp : JStr → Option Int) (l : List Repo) :
    (rowEntries dp l).map Prod.fst = (jsSort (rowNoCmp dp) l).map rowKey := by
simp only [rowEntries, List.map_map]
conv_rhs => rw [← List.enumFrom_map_snd 0 (jsSort (rowNoCmp dp) l), List.map_map]
rfl

theorem assignedRowNo_getElem (dp : JStr → Option Int) (l : List Repo)
    (hkeys : (l.map rowKey).Nodup) (i : Nat) (hi : i < (jsSort (rowNoCmp dp) l).length) :
    assignedRowNo dp l ((jsSort (rowNoCmp dp) l)[i]) = (jsSort (rowNoCmp dp) l).length - i := by
have hnodup : ((rowEntries dp l).map Prod.fst).Nodup := by
  rw [rowEntries_keys]
  exact (((jsSort_perm (rowNoCmp dp) l).map rowKey).nodup_iff).mpr hkeys
have hi' : i < ((jsSort (rowNoCmp dp) l).enum).length := by
  simpa [List.enum_length] using hi
have hmem : (rowKey ((jsSort (rowNoCmp dp) l)[i]), (jsSort (rowNoCmp dp) l).length - i)
    ∈ rowEntries dp l := by
  have he : (i, (jsSort (rowNoCmp dp) l)[i]) ∈ (jsSort (rowNoCmp dp) l).enum := by
    have hg : ((jsSort (rowNoCmp dp) l).enum)[i] = (i, (jsSort (rowNoCmp dp) l)[i]) := by
      simp [List.enum]
    rw [← hg]
    exact List.getElem_mem hi'
  exact List.mem_map_of_mem (fun p => (rowKey p.2, (jsSort (rowNoCmp dp) l).length - p.1)) he
unfold assignedRowNo
rw [jsMapGet_eq_some hnodup hmem]
rfl

theorem recalcRowNumbers_map_rowNo (dp : JStr → Option Int) (l : List Repo) :
    (recalcRowNumbers dp l).map Repo.__rowNo = l.map (fun r => assignedRowNo dp l r) := by
simp [recalcRowNumbers, List.map_map]

theorem map_assignedRowNo_sorted (dp : JStr → Option Int) (l : List Repo)
    (hkeys : (l.map rowKey).Nodup) :
    (jsSort (rowNoCmp dp) l).map (fun r => assignedRowNo dp l r)
      = (List.range l.length).map (fun i => l.length - i) := by
have hlen : (jsSort (rowNoCmp dp) l).length = l.length :=
  (jsSort_perm (rowNoCmp dp) l).length_eq
apply List.ext_getElem
· simp [hlen]
intro i h1 h2
simp only [List.getElem_map, List.getElem_range]
rw [assignedRowNo_getElem dp l hkeys i (by simp at h1; omega), hlen]

theorem range_map_sub_eq_reverse (N : Nat) :
    (List.range N).map (fun i => N - i) = (List.range' 1 N).reverse := by
apply List.ext_getElem
· simp
intro i h1 h2
simp only [List.getElem_map, List.getElem_range, List.getElem_reverse, List.length_range',
  List.getElem_range']
simp at h1
omega

/-! ### Sorted search -/

theorem find?_min_of_sorted {p : Repo → Bool} :
    ∀ {l : List Repo}, l.Pairwise (fun a b => a.__rowNo ≤ b.__rowNo) →
      ∀ {r : Repo}, l.find? p = some r → ∀ x ∈ l, p x = true → r.__rowNo ≤ x.__rowNo
  | [], _, _, hf => by simp at hf
  | a :: t, hs, r, hf => by
    intro x hx hpx
    rw [List.find?_cons] at hf
    rcases hpa : p a with _ | _
    · rw [hpa] at hf
      rcases List.mem_cons.mp hx with rfl | hxt
      · rw [hpa] at hpx
        exact absurd hpx (by simp)
      · exact find?_min_of_sorted (List.Pairwise.of_cons hs) hf x hxt hpx
    · rw [hpa] at hf
      cases hf
      rcases List.mem_cons.mp hx with rfl | hxt
      · exact le_refl _
      · exact List.rel_of_pairwise_cons hs hxt

theorem head?_min_of_sorted :
    ∀ {l : List Repo}, l.Pairwise (fun a b => a.__rowNo ≤ b.__rowNo) →
      ∀ {r : Repo}, l.head? = some r → ∀ x ∈ l, r.__rowNo ≤ x.__rowNo
  | [], _, _, hf => by simp at hf
  | a :: t, hs, r, hf => by
    intro x hx
    cases hf
    rcases List.mem_cons.mp hx with rfl | hxt
    · exact le_refl _
    · exact List.rel_of_pairwise_cons hs hxt

theorem launchable_sorted (s : StoreState) :
    (getLaunchableRepos s).Pairwise (fun a b => a.__rowNo ≤ b.__rowNo) := by
have h := jsSort_sorted (fun a b : Repo => (a.__rowNo : Int) - (b.__rowNo : Int))
  (by
    intro a b
    show (b.__rowNo : Int) - (a.__rowNo : Int) = -((a.__rowNo : Int) - (b.__rowNo : Int))
    omega)
  (by
    intro a b c
    show (a.__rowNo : Int) - (b.__rowNo : Int) ≤ 0 →
      (b.__rowNo : Int) - (c.__rowNo : Int) ≤ 0 → (a.__rowNo : Int) - (c.__rowNo : Int) ≤ 0
    omega)
  (s.repos.filter (fun r => decide (0 < r.__rowNo)))
refine h.imp ?_
intro a b hab
have hab' : (a.__rowNo : Int) - (b.__rowNo : Int) ≤ 0 := hab
omega

theorem launchable_mem (s : StoreState) {r : Repo} :
    r ∈ getLaunchableRepos s ↔ r ∈ s.repos ∧ 0 < r.__rowNo := by
unfold getLaunchableRepos
rw [(jsSort_perm _ _).mem_iff, List.mem_filter]
simp

/-! ### Substring search -/

theorem startsWithSeq_iff : ∀ (hay tok : JStr), startsWithSeq hay tok = true ↔ tok <+: hay
  | _, [] => by simp [startsWithSeq]
  | [], _ :: _ => by simp [startsWithSeq]
  | h :: hs, t :: ts => by
    simp only [startsWithSeq, Bool.and_eq_true, decide_eq_true_eq,
      startsWithSeq_iff hs ts, List.cons_prefix_cons]
    constructor
    · rintro ⟨rfl, hp⟩
      exact ⟨rfl, hp⟩
    · rintro ⟨rfl, hp⟩
      exact ⟨rfl, hp⟩

theorem includesSeq_iff : ∀ (hay tok : JStr), includesSeq hay tok = true ↔ tok <:+: hay
  | [], tok => by
    simp [includesSeq, List.isEmpty_iff]
  | h :: t, tok => by
    simp only [includesSeq, Bool.or_eq_true, startsWithSeq_iff, includesSeq_iff t tok,
      List.infix_cons_iff]

/-! ### Counter partition -/

theorem length_filter_not_add_length_filter (p : α → Bool) (l : List α) :
    (l.filter (fun a => !p a)).length + (l.filter p).length = l.length := by
induction l with
| nil => rfl
| cons a t ih =>
  rcases h : p a with _ | _ <;> simp [List.filter_cons, h] <;> omega

/-- Stripping nothing: a string that ends neither in `.git` nor in `/` is
left unchanged by `normalizeRepoUrl`. -/
theorem normalizeRepoUrl_of_clean (s : JStr) (h1 : jsEndsWith s ".git".data = false)
    (h2 : jsEndsWith s "/".data = false) : normalizeRepoUrl s = s := by
simp [normalizeRepoUrl, h1, h2]

/-! ## The claims -/

/-- C10: after every call to `recalcStateCounters`, `count` is the number of
records whose `is_new_project` flag is false and `localOnlyCount` the number
whose flag is true — so the two sum to the total record count, and `count`
is not the total — while `installedCount` is the cardinality of the
installed-URL set. -/
theorem recalcStateCounters_counts (dp : JStr → Option Int) (s : StoreState) :
    (recalcStateCounters dp s).count
        = (s.repos.filter (fun r => !r.is_new_project)).length ∧
    (recalcStateCounters dp s).localOnlyCount
        = (s.repos.filter (fun r => r.is_new_project)).length ∧
    (recalcStateCounters dp s).count + (recalcStateCounters dp s).localOnlyCount
        = s.repos.length ∧
    (recalcStateCounters dp s).installedCount = s.installedUrls.card :=
⟨rfl, rfl, length_filter_not_add_length_filter _ s.repos, rfl⟩

/-- C2: when the remote install call fails, the Entity Store afterwards
equals its pre-install state by value — installed-URL set, record set and
all derived counters are unchanged (the handler mutates nothing before the
remote call settles, and no in-flight lock exists to release) — the run
reports failure, and the failure notice carries the remote error detail
verbatim. -/
theorem installFailure_restoresStore (dp : JStr → Option Int) (s : StoreState)
    (repo : Repo) (e : JStr) :
    (handleInstallConfirm dp s repo (Except.error e)).1 = s ∧
    (handleInstallConfirm dp s repo (Except.error e)).1.installedUrls = s.installedUrls ∧
    (handleInstallConfirm dp s repo (Except.error e)).1.repos = s.repos ∧
    (handleInstallConfirm dp s repo (Except.error e)).1.count = s.count ∧
    (handleInstallConfirm dp s repo (Except.error e)).1.localOnlyCount = s.localOnlyCount ∧
    (handleInstallConfirm dp s repo (Except.error e)).1.installedCount = s.installedCount ∧
    (handleInstallConfirm dp s repo (Except.error e)).2.2 = false ∧
    (handleInstallConfirm dp s repo (Except.error e)).2.1
      = installPhase1 repo ++ [Event.welcome ("❌ Install failed: ".data ++ e)] :=
⟨rfl, rfl, rfl, rfl, rfl, rfl, rfl, rfl⟩

/-- C3 (counterexample): two install submissions for the same entity back to
back.  The synchronous prefix each submission runs before its `await`
suspends is exactly the installing notice followed by the remote install
request — no lock is consulted and no "already in progress" signal exists —
so while the first call is still pending the two prefixes have together
issued two remote install calls, not one. -/
theorem install_secondSubmission_cx :
    ((installPhase1 repoInst ++ installPhase1 repoInst).filter isRemoteInstall).length = 2 ∧
    installPhase1 repoInst
      = [Event.welcome "⏳ Installing r...".data, Event.remoteInstall repoInst.url] ∧
    (handleInstallConfirm dateParseNone stInst repoInst (Except.ok ())).2.1
      = installPhase1 repoInst
        ++ [Event.welcome "✅ Installed r".data, Event.closeRow repoInst.url] :=
⟨by decide, by decide, by decide⟩

/-- C3 (amended): app.js keeps no per-entity lock and `handleInstallConfirm`
never rejects a submission: every call, whatever the store state and remote
outcome, starts with the synchronous installing-notice/remote-call prefix
and issues exactly one remote install request; consequently two
back-to-back submissions for the same key issue two remote calls. -/
theorem install_alwaysIssuesRemoteCall (dp : JStr → Option Int) (s s2 : StoreState)
    (repo : Repo) (remote remote2 : Except JStr Unit) :
    ((handleInstallConfirm dp s repo remote).2.1.filter isRemoteInstall)
      = [Event.remoteInstall repo.url] ∧
    installPhase1 repo <+: (handleInstallConfirm dp s repo remote).2.1 ∧
    (((handleInstallConfirm dp s repo remote).2.1
        ++ (handleInstallConfirm dp s2 repo remote2).2.1).filter isRemoteInstall).length
      = 2 := by
cases remote <;> cases remote2 <;>
  simp [handleInstallConfirm, installPhase1, installPhase2, isRemoteInstall,
    List.filter_append, List.IsPrefix]

/-- C9: a rename whose trimmed target is empty or equal to the current name
is rejected before any remote call is issued: the Entity Store is left
completely unchanged and the only effect is replacing the edit field with
the original text. -/
theorem saveRename_localPrecondition (dp : JStr → Option Int) (s : StoreState)
    (original url endpoint input : JStr) (remote : Except JStr Unit)
    (h : jsTrim input = [] ∨ jsTrim input = original) :
    saveRename dp s original url endpoint input remote = (s, [Event.setCellText original]) := by
unfold saveRename
rcases h with h | h <;> rw [h] <;> simp

/-- Witness for C9 at a concrete input: a whitespace-only rename target. -/
theorem saveRename_localPrecondition_witness :
    saveRename dateParseNone stInst "r".data "u".data "/api/rename".data "   ".data
        (Except.ok ())
      = (stInst, [Event.setCellText "r".data]) :=
saveRename_localPrecondition dateParseNone stInst "r".data "u".data "/api/rename".data
  "   ".data (Except.ok ()) (Or.inl (by decide))

/-- C4 (counterexample): `normalizeRepoUrl` is not idempotent on every
string: one pass over "a.git/" strips only the slash, leaving "a.git",
and the second pass strips ".git" as well. -/
theorem normalizeRepoUrl_notIdempotent_cx :
    normalizeRepoUrl "a.git/".data = "a.git".data ∧
    normalizeRepoUrl (normalizeRepoUrl "a.git/".data) = "a".data ∧
    normalizeRepoUrl (normalizeRepoUrl "a.git/".data) ≠ normalizeRepoUrl "a.git/".data :=
⟨by decide, by decide, by decide⟩

/-- C4 (amended): `normalizeRepoUrl` is idempotent on every url whose
single-pass result ends in neither ".git" nor "/" (in particular on all
urls the counterexample shape excludes), and then the `isInstalled`
membership test gives the same result on the already-normalized url as on
the original. -/
theorem normalizeRepoUrl_idem_of_clean (url : JStr)
    (h1 : jsEndsWith (normalizeRepoUrl url) ".git".data = false)
    (h2 : jsEndsWith (normalizeRepoUrl url) "/".data = false) :
    normalizeRepoUrl (normalizeRepoUrl url) = normalizeRepoUrl url ∧
    ∀ (s : StoreState) (r : Repo), r.url = url →
      isInstalled s { r with url := normalizeRepoUrl url } = isInstalled s r := by
have hid : normalizeRepoUrl (normalizeRepoUrl url) = normalizeRepoUrl url :=
  normalizeRepoUrl_of_clean (normalizeRepoUrl url) h1 h2
refine ⟨hid, ?_⟩
intro s r hr
rcases hnew : r.is_new_project with _ | _ <;> simp [isInstalled, hnew, hid, hr]

/-- Witness for C4 (amended) at a concrete url. -/
theorem normalizeRepoUrl_idem_of_clean_witness :
    jsEndsWith (normalizeRepoUrl "https://github.com/u/r".data) ".git".data = false ∧
    jsEndsWith (normalizeRepoUrl "https://github.com/u/r".data) "/".data = false ∧
    normalizeRepoUrl (normalizeRepoUrl "https://github.com/u/r".data)
      = normalizeRepoUrl "https://github.com/u/r".data :=
⟨by decide, by decide,
  (normalizeRepoUrl_idem_of_clean "https://github.com/u/r".data (by decide) (by decide)).1⟩

/-- C5: clicking row B's primary cell while row A is expanded closes A's
panel and opens B's, so exactly B is expanded afterwards; the intermediate
state after `closeAllActionRows` is already empty, so at no point are both
open; and `openActionRow` leaves at most one row expanded from any state
whatsoever. -/
theorem openActionRow_singlePanel (active : Finset JStr) (a b : JStr)
    (hab : a ≠ b) (ha : a ∈ active) (hb : b ∉ active) :
    openActionRow active b = {b} ∧
    a ∉ openActionRow active b ∧
    closeAllActionRows active (some b) = ∅ ∧
    ∀ (t : Finset JStr) (u : JStr), (openActionRow t u).card ≤ 1 := by
have hsub : ∀ (t : Finset JStr) (u : JStr), closeAllActionRows t (some u) ⊆ {u} := by
  intro t u x hx
  rw [closeAllActionRows, Finset.mem_filter] at hx
  have : u = x := Option.some.inj hx.2
  simp [← this]
have hclose : closeAllActionRows active (some b) = ∅ := by
  rw [Finset.eq_empty_iff_forall_not_mem]
  intro x hx
  have hxb : x ∈ ({b} : Finset JStr) := hsub active b hx
  rw [Finset.mem_singleton] at hxb
  subst hxb
  rw [closeAllActionRows, Finset.mem_filter] at hx
  exact hb hx.1
have hopen : openActionRow active b = {b} := by
  rw [openActionRow]
  simp only [hb, if_false, hclose]
  simp
refine ⟨hopen, ?_, hclose, ?_⟩
· rw [hopen, Finset.mem_singleton]
  exact hab
· intro t u
  rw [openActionRow]
  by_cases hw : u ∈ t
  · simp only [hw, if_true]
    calc ((closeAllActionRows t (some u)).erase u).card
        ≤ (closeAllActionRows t (some u)).card := Finset.card_le_card (Finset.erase_subset u _)
      _ ≤ ({u} : Finset JStr).card := Finset.card_le_card (hsub t u)
      _ = 1 := Finset.card_singleton u
  · simp only [hw, if_false]
    have : insert u (closeAllActionRows t (some u)) ⊆ {u} := by
      intro x hx
      rcases Finset.mem_insert.mp hx with rfl | hx'
      · exact Finset.mem_singleton_self x
      · exact hsub t u hx'
    calc (insert u (closeAllActionRows t (some u))).card
        ≤ ({u} : Finset JStr).card := Finset.card_le_card this
      _ = 1 := Finset.card_singleton u

/-- Witness for C5 at concrete cells: row "ua" expanded, row "ub" clicked. -/
theorem openActionRow_singlePanel_witness :
    openActionRow ({"ua".data} : Finset JStr) "ub".data = {"ub".data} ∧
    "ua".data ∉ openActionRow ({"ua".data} : Finset JStr) "ub".data := by
have h := openActionRow_singlePanel ({"ua".data} : Finset JStr) "ua".data "ub".data
  (by decide) (by decide) (by decide)
exact ⟨h.1, h.2.1⟩

/-- C6 (counterexample): sorting by description ascending, two records with
equal descriptions keep the record-array order — name "b" stays before
name "a" — although ordering the tie by name ascending would put "a"
first: ties are not broken by name. -/
theorem getSortedRepos_tieNotByName_cx :
    getSortedRepos dateParseNone SortKey.description SortDir.asc [repoDescB, repoDescA]
      = [repoDescB, repoDescA] ∧
    sortResult dateParseNone SortKey.description repoDescB repoDescA = 0 ∧
    cmpText repoDescA.name repoDescB.name = -1 :=
⟨by decide, by decide, by decide⟩

/-- C6 (amended): the sort is stable: for every sort key and direction, two
records that compare equal on the chosen column keep their relative order
from the record array — they are not re-ordered by name. -/
theorem getSortedRepos_ties_stable (dp : JStr → Option Int) (key : SortKey) (dir : SortDir)
    {l : List Repo} {a b : Repo}
    (htie : sortResult dp key a b = 0) (hsub : [a, b].Sublist l) :
    [a, b].Sublist (getSortedRepos dp key dir l) := by
unfold getSortedRepos jsSort
refine List.pair_sublist_insertionSort ?_ hsub
show sortResult dp key a b * dirSign dir ≤ 0
rw [htie]
simp

/-- Witness for C6 (amended) at a concrete tie. -/
theorem getSortedRepos_ties_stable_witness :
    [repoDescB, repoDescA].Sublist
      (getSortedRepos dateParseNone SortKey.description SortDir.asc [repoDescB, repoDescA]) :=
getSortedRepos_ties_stable dateParseNone SortKey.description SortDir.asc (by decide)
  (List.Sublist.refl _)

/-- C7 (counterexample): no field of `{name "x", private true}` contains
"repo" — the kind label is "github", which does not contain it — so the
filter text "priv repo" matches neither record, while the claim's scenario
asserts it matches the first ("priv" alone does occur in "private lock"). -/
theorem getFilteredRepos_privRepo_cx :
    getFilteredRepos dateParseNone SortKey.name SortDir.asc "priv repo".data
      [repoPrivX, repoPubY] = [] ∧
    includesSeq (repoHaystack repoPrivX) "priv".data = true ∧
    includesSeq (repoHaystack repoPrivX) "repo".data = false :=
⟨by decide, by decide, by decide⟩

/-- C7 (amended): a record passes the filter iff it is in the sorted list
and every whitespace-separated token of the trimmed lower-cased filter text
occurs as a contiguous substring of the record's haystack (name,
description, url, formatted date and time, privacy and kind labels).  The
scenario, corrected: against `{name "x", private true}` and
`{name "y", private false}` the filter "priv" matches exactly the first,
and "priv repo" matches neither, because no field of either haystack
contains "repo". -/
theorem getFilteredRepos_tokenMatch (dp : JStr → Option Int) (key : SortKey) (dir : SortDir)
    (query : JStr) (repos : List Repo) (r : Repo) :
    (r ∈ getFilteredRepos dp key dir query repos ↔
      r ∈ getSortedRepos dp key dir repos ∧
        ∀ t ∈ filterTokens query, t <:+: repoHaystack r) ∧
    getFilteredRepos dateParseNone SortKey.name SortDir.asc "priv".data
      [repoPrivX, repoPubY] = [repoPrivX] ∧
    getFilteredRepos dateParseNone SortKey.name SortDir.asc "priv repo".data
      [repoPrivX, repoPubY] = [] := by
refine ⟨?_, by decide, by decide⟩
by_cases hq : (jsToLower (jsTrim query)).isEmpty = true
· have hq' : jsToLower (jsTrim query) = [] := List.isEmpty_iff.mp hq
  have htok : filterTokens query = [] := by
    unfold filterTokens
    rw [hq']
    decide
  rw [htok]
  simp [getFilteredRepos, hq']
· have hq'' : (jsToLower (jsTrim query)).isEmpty = false := by
    rcases h : (jsToLower (jsTrim query)).isEmpty with _ | _
    · rfl
    · exact absurd h hq
  simp only [getFilteredRepos, hq'', Bool.false_eq_true, if_false, List.mem_filter,
    List.all_eq_true, includesSeq_iff]

/-- Witness for C7 at a concrete query and record list. -/
theorem getFilteredRepos_tokenMatch_witness :
    repoPrivX ∈ getFilteredRepos dateParseNone SortKey.name SortDir.asc "priv".data
        [repoPrivX, repoPubY] ↔
      repoPrivX ∈ getSortedRepos dateParseNone SortKey.name SortDir.asc
          [repoPrivX, repoPubY] ∧
        ∀ t ∈ filterTokens "priv".data, t <:+: repoHaystack repoPrivX :=
(getFilteredRepos_tokenMatch dateParseNone SortKey.name SortDir.asc "priv".data
  [repoPrivX, repoPubY] repoPrivX).1

/-- C8: `getNextLaunchRepo` returns nothing when the store is empty; any
returned record is a stored record with a positive row number; when some
record lies strictly past the watermark it returns one with the least row
number among those; and when every launchable record is at or below the
watermark it wraps to a record with the least row number overall. -/
theorem getNextLaunchRepo_spec (s : StoreState) :
    (s.repos = [] → getNextLaunchRepo s = none) ∧
    (∀ r : Repo, getNextLaunchRepo s = some r → r ∈ s.repos ∧ 0 < r.__rowNo) ∧
    (∀ r₁ : Repo, r₁ ∈ s.repos → s.lastLaunchedRowNo.getD 0 < r₁.__rowNo →
      ∃ r : Repo, getNextLaunchRepo s = some r ∧ s.lastLaunchedRowNo.getD 0 < r.__rowNo ∧
        ∀ x ∈ s.repos, s.lastLaunchedRowNo.getD 0 < x.__rowNo → r.__rowNo ≤ x.__rowNo) ∧
    ((∃ r₀ : Repo, r₀ ∈ s.repos ∧ 0 < r₀.__rowNo) →
      (∀ x ∈ s.repos, 0 < x.__rowNo → x.__rowNo ≤ s.lastLaunchedRowNo.getD 0) →
      ∃ r : Repo, getNextLaunchRepo s = some r ∧ 0 < r.__rowNo ∧
        ∀ x ∈ s.repos, 0 < x.__rowNo → r.__rowNo ≤ x.__rowNo) := by
have hsort := launchable_sorted s
refine ⟨?_, ?_, ?_, ?_⟩
· intro h
  simp [getNextLaunchRepo, getLaunchableRepos, jsSort, h]
· intro r hr
  simp only [getNextLaunchRepo] at hr
  by_cases he : (getLaunchableRepos s).isEmpty
  · rw [if_pos he] at hr
    exact absurd hr (by simp)
  · rw [if_neg he] at hr
    rcases hf : (getLaunchableRepos s).find?
        (fun x => decide (s.lastLaunchedRowNo.getD 0 < x.__rowNo)) with _ | r0
    · rw [hf] at hr
      simp only [Option.orElse] at hr
      have : r ∈ getLaunchableRepos s :=
        List.mem_of_mem_head? (by rw [hr]; exact rfl)
      exact (launchable_mem s).mp this
    · rw [hf] at hr
      simp only [Option.orElse] at hr
      cases hr
      exact (launchable_mem s).mp (List.mem_of_find?_eq_some hf)
· intro r₁ h₁ hgt
  have h₁L : r₁ ∈ getLaunchableRepos s := (launchable_mem s).mpr ⟨h₁, by omega⟩
  have hne : ¬ (getLaunchableRepos s).isEmpty = true := by
    rcases hL : getLaunchableRepos s with _ | ⟨x, t⟩
    · rw [hL] at h₁L
      exact absurd h₁L (List.not_mem_nil r₁)
    · simp
  rcases hf : (getLaunchableRepos s).find?
      (fun x => decide (s.lastLaunchedRowNo.getD 0 < x.__rowNo)) with _ | r0
  · exact absurd (List.find?_eq_none.mp hf r₁ h₁L (by simpa using hgt)) (by simp)
  · refine ⟨r0, ?_, ?_, ?_⟩
    · simp only [getNextLaunchRepo]
      rw [if_neg hne, hf]
      exact rfl
    · have := List.find?_some hf
      simpa using this
    · intro x hx hxgt
      have hxL : x ∈ getLaunchableRepos s := (launchable_mem s).mpr ⟨hx, by omega⟩
      exact find?_min_of_sorted hsort hf x hxL (by simpa using hxgt)
· rintro ⟨r₀, h₀, h₀pos⟩ hall
  have h₀L : r₀ ∈ getLaunchableRepos s := (launchable_mem s).mpr ⟨h₀, h₀pos⟩
  have hne : ¬ (getLaunchableRepos s).isEmpty = true := by
    rcases hL : getLaunchableRepos s with _ | ⟨x, t⟩
    · rw [hL] at h₀L
      exact absurd h₀L (List.not_mem_nil r₀)
    · simp
  have hf : (getLaunchableRepos s).find?
      (fun x => decide (s.lastLaunchedRowNo.getD 0 < x.__rowNo)) = none := by
    rw [List.find?_eq_none]
    intro x hxL
    have hx := (launchable_mem s).mp hxL
    have := hall x hx.1 hx.2
    simp
    omega
  rcases hh : (getLaunchableRepos s).head? with _ | rh
  · rcases hL : getLaunchableRepos s with _ | ⟨x, t⟩
    · rw [hL] at h₀L
      exact absurd h₀L (List.not_mem_nil r₀)
    · rw [hL] at hh
      exact absurd hh (by simp)
  · refine ⟨rh, ?_, ?_, ?_⟩
    · simp only [getNextLaunchRepo]
      rw [if_neg hne, hf]
      simp only [Option.orElse]
      exact hh
    · exact ((launchable_mem s).mp (List.mem_of_mem_head? (by rw [hh]; exact rfl))).2
    · intro x hx hxpos
      have hxL : x ∈ getLaunchableRepos s := (launchable_mem s).mpr ⟨hx, hxpos⟩
      exact head?_min_of_sorted hsort hh x hxL

/-- Witness for C8: with row numbers 1 and 2 and watermark 1 a next record
past the watermark exists; the empty store yields nothing. -/
theorem getNextLaunchRepo_spec_witness :
    getNextLaunchRepo { repos := [] } = none ∧
    ∃ r : Repo, getNextLaunchRepo stLaunch = some r ∧
      stLaunch.lastLaunchedRowNo.getD 0 < r.__rowNo := by
refine ⟨(getNextLaunchRepo_spec { repos := [] }).1 rfl, ?_⟩
obtain ⟨r, h1, h2, -⟩ :=
  (getNextLaunchRepo_spec stLaunch).2.2.1 repoRow2 (by decide) (by decide)
exact ⟨r, h1, h2⟩

/-- C1 (counterexample): two records with the same name and creation time
but different urls — pairwise-distinct `(name, url)` keys — tie under the
row-number comparator, so the stable sort leaves them in array order, and
permuting the input array swaps which key receives row number 2: the
assignment is not a function of the record set alone. -/
theorem recalcRowNumbers_orderDependent_cx :
    [repoA1, repoA2].Perm [repoA2, repoA1] ∧
    rowKey repoA1 ≠ rowKey repoA2 ∧
    assignedRowNo dateParseNone [repoA1, repoA2] repoA1 = 2 ∧
    assignedRowNo dateParseNone [repoA2, repoA1] repoA1 = 1 ∧
    (recalcRowNumbers dateParseNone [repoA1, repoA2]).map Repo.__rowNo = [2, 1] ∧
    (recalcRowNumbers dateParseNone [repoA2, repoA1]).map Repo.__rowNo = [2, 1] :=
⟨List.Perm.swap repoA2 repoA1 [], by decide, by decide, by decide, by decide, by decide⟩

/-- C1 (amended): when the `name|url` key strings are pairwise distinct,
the recomputed row numbers over the record set are exactly the integers
1..N; and the assignment is a function of the set alone — every key
receives the same row number after any permutation of the input array —
provided additionally that no two distinct records tie under the
row-number comparator (the counterexample shows order-invariance fails for
tied records). -/
theorem recalcRowNumbers_dense_and_invariant (dp : JStr → Option Int)
    (l l' : List Repo)
    (hkeys : (l.map rowKey).Nodup)
    (hperm : l.Perm l')
    (hanti : ∀ a ∈ l, ∀ b ∈ l, rowNoCmp dp a b ≤ 0 → rowNoCmp dp b a ≤ 0 → a = b) :
    ((recalcRowNumbers dp l).map Repo.__rowNo).Perm (List.range' 1 l.length) ∧
    ∀ r : Repo, assignedRowNo dp l r = assignedRowNo dp l' r := by
constructor
· rw [recalcRowNumbers_map_rowNo]
  have h1 : (l.map (fun r => assignedRowNo dp l r)).Perm
      ((jsSort (rowNoCmp dp) l).map (fun r => assignedRowNo dp l r)) :=
    ((jsSort_perm (rowNoCmp dp) l).map _).symm
  refine h1.trans ?_
  rw [map_assignedRowNo_sorted dp l hkeys, range_map_sub_eq_reverse]
  exact (List.range' 1 l.length).reverse_perm
· intro r
  have heq : jsSort (rowNoCmp dp) l = jsSort (rowNoCmp dp) l' :=
    jsSort_eq_of_perm (rowNoCmp dp) (rowNoCmp_swap dp) (rowNoCmp_trans_nonpos dp) hperm hanti
  unfold assignedRowNo rowEntries
  rw [heq]

/-- Witness for C1 (amended): two records with distinct names and keys,
against the swapped array. -/
theorem recalcRowNumbers_dense_and_invariant_witness :
    ([repoNameA, repoNameB].map rowKey).Nodup ∧
    ((recalcRowNumbers dateParseNone [repoNameA, repoNameB]).map Repo.__rowNo).Perm
      (List.range' 1 2) ∧
    assignedRowNo dateParseNone [repoNameA, repoNameB] repoNameA
      = assignedRowNo dateParseNone [repoNameB, repoNameA] repoNameA := by
have h := recalcRowNumbers_dense_and_invariant dateParseNone
  [repoNameA, repoNameB] [repoNameB, repoNameA] (by decide)
  (List.Perm.swap repoNameB repoNameA []) (by decide)
exact ⟨by decide, h.1, h.2 repoNameA⟩

end ProjectsFactory
